import Mathlib

/-!
Verification development for the `minify-literals` package: a shallow
embedding of `lib/strategy.ts` (placeholder generation, combining,
splitting, the CSS/HTML minifier adapters) and of the orchestrator in
the package entry point (`minifyHTMLLiterals`, `defaultValidation`).

Strings are embedded as `List Char`.  Host-language (JS) string
primitives (`indexOf`, `split`, `replaceAll`, `slice`, …) are given
executable fuel-based models whose semantics match the JS ones on the
inputs that arise (non-empty search patterns; fuel is always adequate,
which is proved where a theorem needs it).  External collaborators
(html-minifier-terser, clean-css, MagicString, parse-literals) are taken
as function parameters, as the spec treats them as opaque.
-/

/-- Leftmost occurrence: `findSub? pat s = some i` iff `i` is the least
index at which `pat` occurs in `s` (JS `String.prototype.indexOf`). -/
def findSub? (pat : List Char) : List Char → Option Nat
  | [] => if pat.isPrefixOf ([] : List Char) then some 0 else none
  | c :: t => if pat.isPrefixOf (c :: t) then some 0 else (findSub? pat t).map (· + 1)

/-- `pat` occurs in `s` at index `i`. -/
def occursAtB (pat s : List Char) (i : Nat) : Bool :=
  pat.isPrefixOf (s.drop i)

/-- JS `String.prototype.includes`. -/
def containsSub (pat s : List Char) : Bool :=
  (findSub? pat s).isSome

/-- JS `String.prototype.indexOf(pat, pos)`. -/
def findFrom? (pat s : List Char) (pos : Nat) : Option Nat :=
  if pat.isEmpty then some (min pos s.length)
  else (findSub? pat (s.drop pos)).map (· + pos)

/-- JS `String.prototype.slice(a, b)` for `a ≤ b`. -/
def extractL (s : List Char) (a b : Nat) : List Char :=
  (s.drop a).take (b - a)

/-- Fuel-driven split on a non-empty separator; with fuel `≥ s.length`
it computes JS `String.prototype.split` (each step consumes at least
one character, so `s.length` steps always suffice). -/
def splitF (pat : List Char) : Nat → List Char → List (List Char)
  | 0, s => [s]
  | fuel+1, s =>
    match findSub? pat s with
    | none => [s]
    | some i => s.take i :: splitF pat fuel (s.drop (i + pat.length))

/-- JS `String.prototype.split` with a string separator. -/
def jsSplit (s pat : List Char) : List (List Char) :=
  if pat.isEmpty then s.map (fun c => [c]) else splitF pat s.length s

/-- JS `String.prototype.replaceAll` with a literal (or equivalent
global-regex) pattern: replace each non-overlapping leftmost occurrence. -/
def replaceAllL (s pat repl : List Char) : List Char :=
  if pat.isEmpty then repl ++ s.flatMap (fun c => c :: repl)
  else List.intercalate repl (jsSplit s pat)

/-- Remove every `\n` and `\r` (JS `replace(/(\n)|(\r)/g, "")`). -/
def stripNewlines (s : List Char) : List Char :=
  s.filter (fun c => !(c = '\n' || c = '\r'))

/-- The whitespace class of JS regex `\s` / `String.prototype.trim`. -/
def jsSpaceChars : List Char :=
  [' ', '\t', '\n', '\x0b', '\x0c', '\r', '\u00A0', '\u1680', '\u2000',
   '\u2001', '\u2002', '\u2003', '\u2004', '\u2005', '\u2006', '\u2007',
   '\u2008', '\u2009', '\u200A', '\u2028', '\u2029', '\u202F', '\u205F',
   '\u3000', '\uFEFF']

def isJsSpace (c : Char) : Bool := jsSpaceChars.contains c

/-- JS regex `\w`. -/
def isWordChar (c : Char) : Bool :=
  ('a' ≤ c && c ≤ 'z') || ('A' ≤ c && c ≤ 'Z') || ('0' ≤ c && c ≤ '9') || c = '_'

/-- Line terminators NOT matched by JS regex `.` (without the `s` flag). -/
def isJsLineTerm (c : Char) : Bool :=
  c = '\n' || c = '\r' || c = '\u2028' || c = '\u2029'

/-- A segment a JS `.`-quantifier can match: no line terminators. -/
def noLineTerm (l : List Char) : Bool := l.all (fun c => !isJsLineTerm c)

/-- ASCII case folding (the tags this package sees are ASCII; JS
`toLowerCase` agrees with this on ASCII). -/
def toLowerAscii (s : List Char) : List Char :=
  s.map (fun c => if 'A' ≤ c && c ≤ 'Z' then Char.ofNat (c.toNat + 32) else c)

/-- Fuel-driven decimal rendering; `toDec n` is the JS template-string
rendering of a natural number. -/
def toDecF : Nat → Nat → List Char
  | 0, n => [Nat.digitChar (n % 10)]
  | fuel+1, n =>
    if n < 10 then [Nat.digitChar n] else toDecF fuel (n / 10) ++ [Nat.digitChar (n % 10)]

def toDec (n : Nat) : List Char := toDecF n n

/-- Fuel-driven model of the global regex replace
`replace(/\/\*[\s\S]*?\*\//g, "")`: drop each lazily-matched
stylesheet comment, scanning left to right. -/
def stripCommentsF : Nat → List Char → List Char
  | 0, s => s
  | fuel+1, s =>
    match findSub? ("/*".toList) s with
    | none => s
    | some i =>
      match findSub? ("*/".toList) (s.drop (i + 2)) with
      | none => s
      | some j => s.take i ++ stripCommentsF fuel (s.drop (i + 2 + j + 2))

def stripComments (s : List Char) : List Char := stripCommentsF s.length s

/-- A literal text segment of a template (`TemplatePart` of
parse-literals): raw text plus source offsets. -/
structure TemplatePart where
  text : List Char
  start : Nat
  end_ : Nat
deriving DecidableEq, Repr

/-- A tagged template as delivered by the external parser. -/
structure Template where
  tag : Option (List Char)
  parts : List TemplatePart
deriving DecidableEq, Repr

/-- The return type of `getPlaceholder`: `string | string[]`. -/
inductive Placeholder where
  | single : List Char → Placeholder
  | multi : List (List Char) → Placeholder
deriving DecidableEq, Repr

def Placeholder.tokens : Placeholder → List (List Char)
  | .single s => [s]
  | .multi l => l

def Placeholder.isSingle : Placeholder → Bool
  | .single _ => true
  | .multi _ => false

/-! ## `defaultStrategy.getPlaceholder` (strategy.ts lines 93-185) -/

/-- `tag?.toLowerCase().includes("css")` (with `undefined` falsy). -/
def isCssTag : Option (List Char) → Bool
  | none => false
  | some t => containsSub ("css".toList) (toLowerAscii t)

def placeholderSuffix : List Char := "();".toList

def placeholderBase : List Char := "@TEMPLATE_EXPRESSION".toList

/-- The markup-mode collision loop: `while (parts.some(part =>
part.text.includes(placeholder + suffix))) placeholder += "_"` followed
by `return placeholder + suffix`.  Fuel-driven; the wrapper passes
enough fuel for the loop to reach its exit condition. -/
def markupLoop (parts : List TemplatePart) : Nat → List Char → List Char
  | 0, cand => cand ++ placeholderSuffix
  | fuel+1, cand =>
    if parts.any (fun part => containsSub (cand ++ placeholderSuffix) part.text) then
      markupLoop parts fuel (cand ++ ['_'])
    else cand ++ placeholderSuffix

def maxTextLen (parts : List TemplatePart) : Nat :=
  (parts.map (fun part => part.text.length)).foldr max 0

def markupPlaceholder (parts : List TemplatePart) : List Char :=
  markupLoop parts (maxTextLen parts + 1) placeholderBase

/-- Classification of the boundary between two consecutive parts in
stylesheet mode, in the source's test order (comments stripped first). -/
inductive BoundaryClass where
  | selector | key | rule | unit | value | param
deriving DecidableEq, Repr

def classifyBoundary (beforeFull afterFull : List Char) : BoundaryClass :=
  let beforeCss := stripComments beforeFull
  let afterCss := stripComments afterFull
  if (afterCss.dropWhile isJsSpace).head? = some '\x7b' then .selector
  else if (afterCss.dropWhile isJsSpace).head? = some ':' then .key
  else if (beforeCss.reverse.dropWhile isJsSpace).head? = some '\x7d' ∨ beforeCss.all isJsSpace then .rule
  else if (afterCss.head?.map isWordChar).getD false then .unit
  else if (beforeCss.reverse.dropWhile isJsSpace).head? = some ':' then .value
  else .param

/-- The numeric-unit loop: draw `randomInt(281474976710655)` until the
decimal rendering does not occur in the preceding part's full text.
`rint` is the stream of draws, `k` the index of the next draw; returns
the chosen numeral and the next stream index. -/
def pickNumF (beforeFull : List Char) (rint : Nat → Nat) : Nat → Nat → List Char × Nat
  | 0, k => (toDec (rint k), k + 1)
  | fuel+1, k =>
    let num := toDec (rint k)
    if containsSub num beforeFull then pickNumF beforeFull rint fuel (k + 1)
    else (num, k + 1)

def varToken (base : List Char) : List Char := "var(--".toList ++ base ++ [')']

def ruleToken (base : List Char) : List Char := '@' :: (base ++ placeholderSuffix)

/-- The stylesheet-mode boundary loop of `getPlaceholder` (`for (let i =
1; i < parts.length; i++)`), with `prevText = parts[i-1].text`, the
current part heading the list, `k` the random-stream cursor and `acc`
the tokens pushed so far (reversed). -/
def cssLoop (base : List Char) (rint : Nat → Nat) :
    List Char → List TemplatePart → Nat → List (List Char) → Placeholder
  | _, [], _, acc => .multi acc.reverse
  | prevText, part :: rest, k, acc =>
    match classifyBoundary prevText part.text with
    | .selector => cssLoop base rint part.text rest k (('#' :: base) :: acc)
    | .key => cssLoop base rint part.text rest k (('-' :: '-' :: base) :: acc)
    | .rule => .single (ruleToken base)
    | .unit =>
      let pick := pickNumF prevText rint (prevText.length + 1) k
      cssLoop base rint part.text rest pick.2 (pick.1 :: acc)
    | .value => cssLoop base rint part.text rest k (varToken base :: acc)
    | .param => cssLoop base rint part.text rest k (varToken base :: acc)

/-- `defaultStrategy.getPlaceholder`.  The call's randomness is passed
in: `rndHex` models `randomBytes(6).toString("hex")` and `rint` the
stream of `randomInt` draws. -/
def getPlaceholder (parts : List TemplatePart) (tag : Option (List Char))
    (rndHex : List Char) (rint : Nat → Nat) : Placeholder :=
  if isCssTag tag then
    match parts with
    | [] => .multi []
    | p :: rest => cssLoop ("tmp_".toList ++ rndHex) rint p.text rest 0 []
  else .single (markupPlaceholder parts)

/-! ## `defaultStrategy.combineHTMLStrings` (strategy.ts lines 187-192) -/

def combineHTMLStrings (parts : List TemplatePart) (placeholder : Placeholder) : List Char :=
  match placeholder with
  | .single ph => List.intercalate ph (parts.map (fun part => part.text))
  | .multi phs =>
    ((parts.enum.map (fun ip => ip.2.text ++ phs.getD ip.1 []))).flatten

/-! ## `defaultStrategy.splitHTMLByPlaceholder` (strategy.ts lines 280-308) -/

/-- `placeholder.endsWith(";")`. -/
def endsWithSemicolon (ph : List Char) : Bool :=
  ph.getLast? == some ';'

/-- The strict multi-token scan (strategy.ts lines 291-305): cursor
`pos`, `indexOf(ph, pos)` per token, `none` models the thrown error. -/
def splitMultiAux (html : List Char) : List (List Char) → Nat → Option (List (List Char))
  | [], pos => some [html.drop pos]
  | ph :: rest, pos =>
    match findFrom? ph html pos with
    | none => none
    | some i => (splitMultiAux html rest (i + ph.length)).map (fun tl => extractL html pos i :: tl)

def splitNotFoundMsg : List Char := "placeholder not found in html".toList

/-- `defaultStrategy.splitHTMLByPlaceholder`.  In single-token mode the
downward `splice` loop replaces each segment by its split on the
placeholder minus its final semicolon; since the loop walks indices
downward over the original array, it equals a flat map of that split. -/
def splitHTMLByPlaceholder (html : List Char) (placeholder : Placeholder) :
    Except (List Char) (List (List Char)) :=
  match placeholder with
  | .single ph =>
    let parts := jsSplit html ph
    if endsWithSemicolon ph then
      .ok (parts.flatMap (fun p => jsSplit p ph.dropLast))
    else .ok parts
  | .multi phs =>
    match splitMultiAux html phs 0 with
    | none => .error splitNotFoundMsg
    | some parts => .ok parts

/-! ## `defaultStrategy.minifyHTML` (strategy.ts lines 194-253) -/

def defaultToken : List Char := "@TEMPLATE_EXPRESSION();".toList

def commentOpen : List Char := "<!--".toList

def commentClose : List Char := "-->".toList

/-- `html.match(/<!--(.*?)@TEMPLATE_EXPRESSION\(\);(.*?)-->/g)` is
non-null: there are positions `p ≤ q ≤ r` carrying `<!--`, the default
token and `-->`, with no line terminator in either gap (`.` does not
cross lines). -/
def hasCommentExpression (s : List Char) : Bool :=
  (List.range s.length).any (fun p =>
    commentOpen.isPrefixOf (s.drop p) &&
    (List.range (s.length + 1)).any (fun q =>
      decide (p + 4 ≤ q) && defaultToken.isPrefixOf (s.drop q) &&
      noLineTerm (extractL s (p + 4) q) &&
      (List.range (s.length + 1)).any (fun r =>
        decide (q + defaultToken.length ≤ r) && commentClose.isPrefixOf (s.drop r) &&
        noLineTerm (extractL s (q + defaultToken.length) r))))

def openTagPat : List Char := "<@TEMPLATE_EXPRESSION();".toList

def openTagTmp : List Char := "<TEMPLATE_EXPRESSION___".toList

def closeTagPat : List Char := "</@TEMPLATE_EXPRESSION();".toList

def closeTagTmp : List Char := "</TEMPLATE_EXPRESSION___".toList

/-- `defaultStrategy.minifyHTML`.  `extMinify` is the external
html-minifier-terser call (with its options already applied);
`postFix original result` abstracts the two trailing fix-ups on the
minifier output (the SVG newline re-collapse under `collapseWhitespace`
and `fixCleanCssTidySelectors`), which take the pre-minification string
and the current result.  The comment pre-flight and the tag-name
placeholder rewrites are embedded concretely. -/
def minifyHTML (extMinify : List Char → List Char)
    (postFix : List Char → List Char → List Char) (html : List Char) : List Char :=
  if hasCommentExpression html then html
  else
    let html1 := replaceAllL (replaceAllL html openTagPat openTagTmp) closeTagPat closeTagTmp
    let res := extMinify html1
    let res1 := replaceAllL (replaceAllL res openTagTmp openTagPat) closeTagTmp closeTagPat
    postFix html1 res1

/-! ## `defaultStrategy.minifyCSS` (strategy.ts lines 254-279) -/

/-- What clean-css's `minify` returns, as the adapter reads it. -/
structure CssOutput where
  errors : List (List Char)
  warnings : List (List Char)
  styles : List Char

def cssColonPat : List Char := "@TEMPLATE_EXPRESSION();:".toList

def cssColonRepl : List Char := "--TEMPLATE-EXPRESSION:".toList

/-- `defaultStrategy.minifyCSS`.  `extMinify` is the external clean-css
call; `postFix original result` abstracts `fixCleanCssTidySelectors`.
The token-shape rewrite before and after, the hard-error throw and the
warnings fallback are embedded concretely. -/
def minifyCSS (extMinify : List Char → CssOutput)
    (postFix : List Char → List Char → List Char) (css : List Char) :
    Except (List Char) (List Char) :=
  let css1 := replaceAllL css cssColonPat cssColonRepl
  let output := extMinify css1
  if output.errors ≠ [] then .error (List.intercalate ("\n\n".toList) output.errors)
  else if output.warnings ≠ [] then .ok (stripNewlines css1)
  else .ok (postFix css1 (replaceAllL output.styles cssColonRepl cssColonPat))

/-! ## `defaultValidation` (index, lines 211-226) -/

def validationMsg : List Char :=
  "getPlaceholder() must return a non-empty string | string[]".toList

def ensurePlaceholderValid : Placeholder → Except (List Char) Unit
  | .single s => if 0 < s.length then .ok () else .error validationMsg
  | .multi l => if l.all (fun ph => decide (0 < ph.length)) then .ok () else .error validationMsg

def partsMismatchMsg : List Char :=
  "splitHTMLByPlaceholder() must return same number of strings as template parts".toList

def ensureHTMLPartsValid (parts : List TemplatePart) (htmlParts : List (List Char)) :
    Except (List Char) Unit :=
  if parts.length ≠ htmlParts.length then .error partsMismatchMsg else .ok ()

/-! ## `minifyHTMLLiterals` (index, lines 248-346) -/

/-- One overwrite on the shared buffer, in original-source offsets. -/
structure Edit where
  start : Nat
  end_ : Nat
  content : List Char
deriving DecidableEq, Repr

/-- Modelled from the spec: the external text-editing buffer
(MagicString) applies range-addressed overwrites keyed by
original-source offsets; overwrites from distinct parts have disjoint
ranges, so they can be applied right-to-left. -/
def applyEdits (source : List Char) (edits : List Edit) : List Char :=
  edits.foldr (fun e acc => acc.take e.start ++ e.content ++ acc.drop e.end_) source

/-- The per-template overwrites: one per part with `start < end`,
writing `minParts[index] ?? ""` (index, lines 323-327). -/
def templateEdits (t : Template) (minParts : List (List Char)) : List Edit :=
  t.parts.enum.filterMap (fun ip =>
    if ip.2.start < ip.2.end_ then some ⟨ip.2.start, ip.2.end_, minParts.getD ip.1 []⟩ else none)

def minifyEdits (templates : List Template)
    (processTemplate : Template → Option (List (List Char))) : List Edit :=
  (templates.map (fun t =>
    match processTemplate t with
    | none => []
    | some minParts => templateEdits t minParts)).flatten

/-- The orchestrator `minifyHTMLLiterals`, with the external literal
parser abstracted as `parse` and the whole per-template pipeline
(shouldMinify/shouldMinifyCSS decision, placeholder, combine, minify,
split, validate) abstracted as `processTemplate`, which returns the
minified part strings of a template, or `none` when the template does
not qualify for minification.  After all overwrites are applied, the
result is the "no change" sentinel `none` iff the buffer text equals
the source (index, lines 330-345). -/
def minifyHTMLLiterals (parse : List Char → List Template)
    (processTemplate : Template → Option (List (List Char)))
    (source : List Char) : Option (List Char) :=
  let sourceMin := applyEdits source (minifyEdits (parse source) processTemplate)
  if sourceMin = source then none else some sourceMin

/-! ## Concrete instances and specification vocabulary used by the theorems -/

instance exceptDecEq {e a : Type} [DecidableEq e] [DecidableEq a] :
    DecidableEq (Except e a) := fun x y =>
  match x, y with
  | .error u, .error v =>
    if h : u = v then isTrue (by rw [h]) else isFalse (by intro hc; cases hc; exact h rfl)
  | .error _, .ok _ => isFalse (by intro hc; cases hc)
  | .ok _, .error _ => isFalse (by intro hc; cases hc)
  | .ok u, .ok v =>
    if h : u = v then isTrue (by rw [h]) else isFalse (by intro hc; cases hc; exact h rfl)

def c1Parts : List TemplatePart :=
  [⟨"a@TEMPLATE_EXPRESSION()b".toList, 10, 34⟩, ⟨"c".toList, 37, 38⟩]

/-- Interleave segments with the tokens that separated them and
concatenate; the inverse reading of the multi-token split. -/
def interleaveConcat : List (List Char) → List (List Char) → List Char
  | [], _ => []
  | s :: ss, [] => s ++ interleaveConcat ss []
  | s :: ss, t :: ts => s ++ (t ++ interleaveConcat ss ts)

/-- The left-to-right scan specification of the multi-token splitter:
each token is located at its least occurrence at or after the cursor
left by the previous token, each emitted segment is the text between
the cursor and that occurrence, and the final segment is the remaining
text. -/
def ScanSpec (html : List Char) : Nat → List (List Char) → List (List Char) → Prop
  | pos, [], segs => segs = [html.drop pos]
  | pos, ph :: rest, segs =>
    ∃ i, pos ≤ i ∧ occursAtB ph html i = true ∧
      (∀ j, pos ≤ j → j < i → occursAtB ph html j = false) ∧
      ∃ tl, segs = extractL html pos i :: tl ∧ ScanSpec html (i + ph.length) rest tl

/-- The failure condition of the multi-token splitter: following the
same left-to-right cursor discipline, some token has no occurrence at
or after its cursor. -/
def ScanFails (html : List Char) : Nat → List (List Char) → Prop
  | _, [] => False
  | pos, ph :: rest =>
    (∀ j, pos ≤ j → occursAtB ph html j = false) ∨
    (∃ i, pos ≤ i ∧ occursAtB ph html i = true ∧
      (∀ j, pos ≤ j → j < i → occursAtB ph html j = false) ∧
      ScanFails html (i + ph.length) rest)

def c2Parts : List TemplatePart :=
  [⟨"x#tmp_0y".toList, 0, 8⟩, ⟨('\x7b' :: "z".toList), 11, 13⟩]

def c4Parts : List TemplatePart :=
  [⟨"x".toList, 0, 1⟩, ⟨('\x7b' :: "z".toList), 4, 6⟩]

def c5Css : List Char := "@TEMPLATE_EXPRESSION();:red\n".toList

def c5Ext : List Char → CssOutput := fun _ => ⟨[], ["warning".toList], []⟩

/-! ## C6: the comment pre-flight of minifyHTML -/

/-- `tok` occurs inside a markup comment of `s`. -/
def TokenInsideComment (tok s : List Char) : Prop :=
  ∃ a b c d, s = a ++ (commentOpen ++ (b ++ (tok ++ (c ++ (commentClose ++ d)))))

def c6Parts : List TemplatePart :=
  [⟨"@TEMPLATE_EXPRESSION();x<!--".toList, 0, 28⟩, ⟨"-->".toList, 31, 34⟩]

def c6Tok : List Char := "@TEMPLATE_EXPRESSION_();".toList


/-! ## Properties of the string primitives -/

theorem occursAtB_cons_succ (pat : List Char) (c : Char) (t : List Char) (i : Nat) :
    occursAtB pat (c :: t) (i + 1) = occursAtB pat t i := by
  simp [occursAtB, List.drop_succ_cons]


theorem findSub?_nil_pos {pat : List Char} (hp : pat.isPrefixOf ([] : List Char) = true) :
    findSub? pat [] = some 0 := by
  simp [findSub?, hp]

theorem findSub?_nil_neg {pat : List Char} (hp : ¬pat.isPrefixOf ([] : List Char) = true) :
    findSub? pat [] = none := by
  simp [findSub?, hp]

theorem findSub?_cons_pos {pat : List Char} {c : Char} {t : List Char}
    (hp : pat.isPrefixOf (c :: t) = true) : findSub? pat (c :: t) = some 0 := by
  simp [findSub?, hp]

theorem findSub?_cons_neg {pat : List Char} {c : Char} {t : List Char}
    (hp : ¬pat.isPrefixOf (c :: t) = true) :
    findSub? pat (c :: t) = (findSub? pat t).map (· + 1) := by
  simp [findSub?, hp]

theorem findSub?_occurs (pat : List Char) :
    ∀ (s : List Char) (i : Nat), findSub? pat s = some i → occursAtB pat s i = true := by
  intro s
  induction s with
  | nil =>
    intro i h
    by_cases hp : pat.isPrefixOf ([] : List Char) = true
    · rw [findSub?_nil_pos hp] at h
      cases h
      simpa [occursAtB] using hp
    · rw [findSub?_nil_neg hp] at h
      cases h
  | cons c t ih =>
    intro i h
    by_cases hp : pat.isPrefixOf (c :: t) = true
    · rw [findSub?_cons_pos hp] at h
      cases h
      simpa [occursAtB] using hp
    · rw [findSub?_cons_neg hp, Option.map_eq_some'] at h
      obtain ⟨a, ha, rfl⟩ := h
      rw [occursAtB_cons_succ]
      exact ih a ha

theorem findSub?_least (pat : List Char) :
    ∀ (s : List Char) (i : Nat), findSub? pat s = some i →
      ∀ j, j < i → occursAtB pat s j = false := by
  intro s
  induction s with
  | nil =>
    intro i h j hj
    by_cases hp : pat.isPrefixOf ([] : List Char) = true
    · rw [findSub?_nil_pos hp] at h
      cases h
      omega
    · rw [findSub?_nil_neg hp] at h
      cases h
  | cons c t ih =>
    intro i h j hj
    by_cases hp : pat.isPrefixOf (c :: t) = true
    · rw [findSub?_cons_pos hp] at h
      cases h
      omega
    · rw [findSub?_cons_neg hp, Option.map_eq_some'] at h
      obtain ⟨a, ha, rfl⟩ := h
      cases j with
      | zero =>
        rw [show occursAtB pat (c :: t) 0 = pat.isPrefixOf (c :: t) from rfl]
        exact Bool.eq_false_iff.mpr hp
      | succ j0 =>
        rw [occursAtB_cons_succ]
        exact ih a ha j0 (by omega)

theorem findSub?_of_occurs (pat : List Char) :
    ∀ (s : List Char) (j : Nat), occursAtB pat s j = true →
      ∃ i, findSub? pat s = some i ∧ i ≤ j := by
  intro s
  induction s with
  | nil =>
    intro j hj
    refine ⟨0, ?_, Nat.zero_le j⟩
    simp only [occursAtB, List.drop_nil] at hj
    exact findSub?_nil_pos hj
  | cons c t ih =>
    intro j hj
    by_cases hp : pat.isPrefixOf (c :: t) = true
    · exact ⟨0, findSub?_cons_pos hp, Nat.zero_le j⟩
    · cases j with
      | zero =>
        rw [show occursAtB pat (c :: t) 0 = pat.isPrefixOf (c :: t) from rfl] at hj
        exact absurd hj hp
      | succ j0 =>
        rw [occursAtB_cons_succ] at hj
        obtain ⟨i0, hi0, hle⟩ := ih j0 hj
        refine ⟨i0 + 1, ?_, by omega⟩
        rw [findSub?_cons_neg hp, hi0]
        rfl

theorem findSub?_none (pat s : List Char) :
    findSub? pat s = none ↔ ∀ i, occursAtB pat s i = false := by
  constructor
  · intro h i
    by_contra hocc
    rw [Bool.not_eq_false] at hocc
    obtain ⟨i0, hi0, _⟩ := findSub?_of_occurs pat s i hocc
    rw [h] at hi0
    cases hi0
  · intro h
    cases hfs : findSub? pat s with
    | none => rfl
    | some i =>
      have hocc := findSub?_occurs pat s i hfs
      rw [h i] at hocc
      cases hocc

theorem occursAtB_le_length (pat s : List Char) (i : Nat) (hp : pat ≠ [])
    (h : occursAtB pat s i = true) : i + pat.length ≤ s.length := by
  have hpre : pat <+: s.drop i := List.isPrefixOf_iff_prefix.mp h
  have hlen : pat.length ≤ s.length - i := by
    simpa [List.length_drop] using hpre.length_le
  have hi : i < s.length := by
    by_contra hge
    push_neg at hge
    rw [List.drop_of_length_le hge] at hpre
    exact hp (List.prefix_nil.mp hpre)
  omega

theorem occursAtB_getElem? (pat s : List Char) (i : Nat)
    (h : occursAtB pat s i = true) :
    ∀ k, k < pat.length → s[i + k]? = pat[k]? := by
  intro k hk
  obtain ⟨r, hr⟩ := List.isPrefixOf_iff_prefix.mp h
  rw [← List.getElem?_drop, ← hr, List.getElem?_append]
  simp [hk]

theorem occursAtB_no_overlap (body : List Char) (hni : ';' ∉ body) (s : List Char)
    (p q : Nat) (hp : occursAtB (body ++ [';']) s p = true)
    (hq : occursAtB (body ++ [';']) s q = true) (hpq : p < q) :
    p + (body.length + 1) ≤ q := by
  by_contra hlt
  push_neg at hlt
  have h1 : s[p + body.length]? = some ';' := by
    rw [occursAtB_getElem? _ s p hp body.length (by simp), List.getElem?_concat_length]
  have hk : p + body.length = q + (p + body.length - q) := by omega
  have h2 : s[q + (p + body.length - q)]? = (body ++ [';'])[p + body.length - q]? :=
    occursAtB_getElem? _ s q hq _ (by simp; omega)
  have hklt : p + body.length - q < body.length := by omega
  have h3 : body[p + body.length - q]? = some ';' := by
    have h4 := h2
    rw [← hk, h1, List.getElem?_append, if_pos hklt] at h4
    exact h4.symm
  exact hni (List.getElem?_mem h3)

theorem prefix_of_append_of_le (pat x y : List Char) (h : pat <+: x ++ y)
    (hlen : pat.length ≤ x.length) : pat <+: x := by
  obtain ⟨t, ht⟩ := h
  have h1 : pat = x.take pat.length := by
    rw [← List.take_append_of_le_length hlen, ← ht, List.take_left]
  rw [h1]
  exact List.take_prefix _ _

theorem occursAtB_append_left (pat x y : List Char) (j : Nat)
    (h : occursAtB pat (x ++ y) j = true) (hle : j + pat.length ≤ x.length) :
    occursAtB pat x j = true := by
  rw [occursAtB, List.isPrefixOf_iff_prefix] at h ⊢
  rw [List.drop_append_of_le_length (by omega)] at h
  exact prefix_of_append_of_le pat (x.drop j) y h (by simp [List.length_drop]; omega)

theorem occursAtB_of_append (body tail x : List Char) (j : Nat)
    (h : occursAtB (body ++ tail) x j = true) : occursAtB body x j = true := by
  rw [occursAtB, List.isPrefixOf_iff_prefix] at h ⊢
  exact (List.prefix_append body tail).trans h

theorem findSub?_junction (body : List Char) (_hb : body ≠ []) (hni : ';' ∉ body)
    (a T : List Char) (hafree : ∀ i, occursAtB body a i = false) :
    findSub? (body ++ [';']) (a ++ ((body ++ [';']) ++ T)) = some a.length := by
  have hocc : occursAtB (body ++ [';']) (a ++ ((body ++ [';']) ++ T)) a.length = true := by
    rw [occursAtB, List.drop_left, List.isPrefixOf_iff_prefix]
    exact List.prefix_append _ _
  obtain ⟨i, hi, hile⟩ := findSub?_of_occurs _ _ _ hocc
  have hocci := findSub?_occurs _ _ _ hi
  rcases Nat.lt_or_ge i a.length with hlt | hge
  · exfalso
    by_cases hin : i + (body.length + 1) ≤ a.length
    · have h1 : occursAtB (body ++ [';']) a i = true :=
        occursAtB_append_left (body ++ [';']) a ((body ++ [';']) ++ T) i hocci
          (by simpa using hin)
      have h2 : occursAtB body a i = true := occursAtB_of_append body [';'] a i h1
      rw [hafree i] at h2
      cases h2
    · have := occursAtB_no_overlap body hni _ i a.length hocci hocc hlt
      omega
  · have hia : i = a.length := by omega
    rw [← hia]
    exact hi

theorem intercalate_cons₂ (sep a b : List Char) (rest : List (List Char)) :
    List.intercalate sep (a :: b :: rest) = a ++ (sep ++ List.intercalate sep (b :: rest)) := by
  simp [List.intercalate, List.intersperse]

theorem splitF_intercalate (body : List Char) (hb : body ≠ []) (hni : ';' ∉ body) :
    ∀ (segs : List (List Char)) (fuel : Nat), segs ≠ [] →
      (∀ seg ∈ segs, ∀ i, occursAtB body seg i = false) →
      (List.intercalate (body ++ [';']) segs).length ≤ fuel →
      splitF (body ++ [';']) fuel (List.intercalate (body ++ [';']) segs) = segs := by
  intro segs
  induction segs with
  | nil => intro fuel h; exact absurd rfl h
  | cons a rest ih =>
    intro fuel _ hfree hfuel
    cases rest with
    | nil =>
      have hint : List.intercalate (body ++ [';']) [a] = a := by
        simp [List.intercalate]
      rw [hint] at hfuel ⊢
      have hnone : findSub? (body ++ [';']) a = none := by
        rw [findSub?_none]
        intro i
        by_contra hcon
        rw [Bool.not_eq_false] at hcon
        have h2 := occursAtB_of_append body [';'] a i hcon
        rw [hfree a (by simp) i] at h2
        cases h2
      cases fuel with
      | zero => rfl
      | succ f => simp [splitF, hnone]
    | cons b rest2 =>
      rw [intercalate_cons₂] at hfuel ⊢
      have hlen1 : (a ++ ((body ++ [';']) ++ List.intercalate (body ++ [';']) (b :: rest2))).length ≠ 0 := by
        simp
      cases fuel with
      | zero => exact absurd (Nat.le_zero.mp hfuel) hlen1
      | succ f =>
        have hfind := findSub?_junction body hb hni a
          (List.intercalate (body ++ [';']) (b :: rest2)) (fun i => hfree a (by simp) i)
        simp only [splitF, hfind]
        have htake : (a ++ ((body ++ [';']) ++ List.intercalate (body ++ [';']) (b :: rest2))).take a.length = a :=
          List.take_left a _
        have hdrop := List.drop_left (a ++ (body ++ [';'])) (List.intercalate (body ++ [';']) (b :: rest2))
        rw [List.append_assoc] at hdrop
        rw [List.length_append] at hdrop
        rw [htake, hdrop]
        have hrec := ih f (by simp) (fun seg hseg i => hfree seg (by simp [hseg]) i)
          (by simp only [List.length_append, List.length_cons, List.length_nil] at hfuel ⊢; omega)
        rw [hrec]

theorem isEmpty_false_of_ne_nil {l : List Char} (h : l ≠ []) : l.isEmpty = false := by
  cases l with
  | nil => exact absurd rfl h
  | cons c t => rfl

theorem jsSplit_intercalate (body : List Char) (hb : body ≠ []) (hni : ';' ∉ body)
    (segs : List (List Char)) (hne : segs ≠ [])
    (hfree : ∀ seg ∈ segs, ∀ i, occursAtB body seg i = false) :
    jsSplit (List.intercalate (body ++ [';']) segs) (body ++ [';']) = segs := by
  rw [jsSplit, isEmpty_false_of_ne_nil (by simp : (body ++ [';']) ≠ [])]
  simp only [Bool.false_eq_true, if_false]
  exact splitF_intercalate body hb hni segs _ hne hfree (le_refl _)

theorem jsSplit_of_free (body seg : List Char) (hb : body ≠ [])
    (hfree : ∀ i, occursAtB body seg i = false) :
    jsSplit seg body = [seg] := by
  rw [jsSplit, isEmpty_false_of_ne_nil hb]
  simp only [Bool.false_eq_true, if_false]
  have hnone : findSub? body seg = none := (findSub?_none _ _).mpr hfree
  cases h : seg.length with
  | zero => rfl
  | succ n => simp [splitF, hnone]

theorem flatMap_singleton_eq (l : List (List Char)) (f : List Char → List (List Char))
    (h : ∀ x ∈ l, f x = [x]) : l.flatMap f = l := by
  induction l with
  | nil => rfl
  | cons a t ih =>
    simp only [List.flatMap_cons, h a (by simp)]
    rw [ih (fun x hx => h x (by simp [hx]))]
    rfl

theorem splitHTML_single (html ph : List Char) :
    splitHTMLByPlaceholder html (Placeholder.single ph) =
      if endsWithSemicolon ph then
        Except.ok ((jsSplit html ph).flatMap (fun p => jsSplit p ph.dropLast))
      else Except.ok (jsSplit html ph) := rfl

theorem combineHTMLStrings_single (parts : List TemplatePart) (ph : List Char) :
    combineHTMLStrings parts (Placeholder.single ph) =
      List.intercalate ph (parts.map (fun part => part.text)) := rfl

theorem endsWithSemicolon_concat (body : List Char) :
    endsWithSemicolon (body ++ [';']) = true := by
  rw [endsWithSemicolon, List.getLast?_concat]
  rfl

/-- C1 (amended): the round trip holds under the extra hypothesis the
code forces: besides containing every inserted placeholder token
exactly once and in their original order (expressed as the minified
string decomposing as the segments interleaved with the token), the
minified string must contain no occurrence of the placeholder minus its
final semicolon outside the full token occurrences (each segment is
free of the semicolon-less token).  Then `splitHTMLByPlaceholder`
recovers exactly the segments, and in particular
`splitHTMLByPlaceholder (combineHTMLStrings parts ph) ph` has the same
length as `parts` whenever every part's text is free of the
semicolon-less token. -/
theorem splitHTMLByPlaceholder_roundtrip_length
    (body : List Char) (hb : body ≠ []) (hni : ';' ∉ body)
    (segs : List (List Char)) (hne : segs ≠ [])
    (hfree : ∀ seg ∈ segs, findSub? body seg = none) :
    splitHTMLByPlaceholder (List.intercalate (body ++ [';']) segs)
        (Placeholder.single (body ++ [';'])) = .ok segs ∧
    (∀ parts : List TemplatePart, parts.map (fun part => part.text) = segs →
      splitHTMLByPlaceholder (combineHTMLStrings parts (Placeholder.single (body ++ [';'])))
          (Placeholder.single (body ++ [';'])) = .ok segs ∧ segs.length = parts.length) := by
  have hfree' : ∀ seg ∈ segs, ∀ i, occursAtB body seg i = false :=
    fun seg hseg => (findSub?_none body seg).mp (hfree seg hseg)
  have hmain : splitHTMLByPlaceholder (List.intercalate (body ++ [';']) segs)
      (Placeholder.single (body ++ [';'])) = .ok segs := by
    rw [splitHTML_single, if_pos (endsWithSemicolon_concat body)]
    rw [jsSplit_intercalate body hb hni segs hne hfree', List.dropLast_concat]
    congr 1
    exact flatMap_singleton_eq segs _
      (fun seg hseg => jsSplit_of_free body seg hb (hfree' seg hseg))
  refine ⟨hmain, ?_⟩
  intro parts hmap
  have hcomb : combineHTMLStrings parts (Placeholder.single (body ++ [';'])) =
      List.intercalate (body ++ [';']) segs := by
    rw [combineHTMLStrings_single, hmap]
  constructor
  · rw [hcomb]
    exact hmain
  · rw [← hmap, List.length_map]

/-- C1 witness: a concrete two-part instance of the amended round-trip
theorem, with the default markup placeholder. -/
theorem splitHTMLByPlaceholder_roundtrip_length_witness :
    splitHTMLByPlaceholder
        (List.intercalate ("@TEMPLATE_EXPRESSION()".toList ++ [';']) ["x".toList, "y".toList])
        (Placeholder.single ("@TEMPLATE_EXPRESSION()".toList ++ [';'])) =
      .ok ["x".toList, "y".toList] :=
  (splitHTMLByPlaceholder_roundtrip_length "@TEMPLATE_EXPRESSION()".toList (by decide) (by decide)
    ["x".toList, "y".toList] (by decide) (by decide)).1

/-- C1 counterexample: for the two parts `a@TEMPLATE_EXPRESSION()b` and
`c`, `getPlaceholder` returns the default token
`@TEMPLATE_EXPRESSION();` (the first part does not contain the full
token), the combined string contains that token exactly once (at index
24, with no later occurrence), yet `splitHTMLByPlaceholder` returns 3
segments for the 2 parts: the semicolon-optional second split pass also
splits the literal text `@TEMPLATE_EXPRESSION()` inside the first part. -/
theorem c1_counterexample :
    getPlaceholder c1Parts none [] (fun _ => 0) = Placeholder.single defaultToken ∧
    findSub? defaultToken (combineHTMLStrings c1Parts (Placeholder.single defaultToken)) = some 24 ∧
    findSub? defaultToken
      ((combineHTMLStrings c1Parts (Placeholder.single defaultToken)).drop (24 + defaultToken.length)) = none ∧
    splitHTMLByPlaceholder (combineHTMLStrings c1Parts (Placeholder.single defaultToken))
      (Placeholder.single defaultToken) = .ok ["a".toList, "b".toList, "c".toList] ∧
    c1Parts.length = 2 := by
  decide

theorem occursAtB_drop (pat s : List Char) (pos j : Nat) :
    occursAtB pat (s.drop pos) j = occursAtB pat s (pos + j) := by
  simp [occursAtB, List.drop_drop]

theorem findFrom?_some (pat s : List Char) (pos i : Nat) (hb : pat ≠ []) :
    findFrom? pat s pos = some i ↔
      pos ≤ i ∧ occursAtB pat s i = true ∧
        ∀ j, pos ≤ j → j < i → occursAtB pat s j = false := by
  rw [findFrom?, isEmpty_false_of_ne_nil hb]
  simp only [Bool.false_eq_true, if_false, Option.map_eq_some']
  constructor
  · rintro ⟨a, ha, rfl⟩
    refine ⟨by omega, ?_, ?_⟩
    · have := findSub?_occurs pat (s.drop pos) a ha
      rwa [occursAtB_drop, Nat.add_comm pos a] at this
    · intro j hj1 hj2
      have := findSub?_least pat (s.drop pos) a ha (j - pos) (by omega)
      rwa [occursAtB_drop, Nat.add_sub_cancel' hj1] at this
  · rintro ⟨hile, hocc, hmin⟩
    have hocc' : occursAtB pat (s.drop pos) (i - pos) = true := by
      rwa [occursAtB_drop, Nat.add_sub_cancel' hile]
    obtain ⟨i0, hi0, hi0le⟩ := findSub?_of_occurs pat (s.drop pos) (i - pos) hocc'
    have hocc0 : occursAtB pat s (pos + i0) = true := by
      have := findSub?_occurs pat (s.drop pos) i0 hi0
      rwa [occursAtB_drop] at this
    have heq : pos + i0 = i := by
      by_contra hne
      have hlt : pos + i0 < i := by omega
      rw [hmin (pos + i0) (by omega) hlt] at hocc0
      cases hocc0
    exact ⟨i0, hi0, by omega⟩

theorem findFrom?_none (pat s : List Char) (pos : Nat) (hb : pat ≠ []) :
    findFrom? pat s pos = none ↔ ∀ j, pos ≤ j → occursAtB pat s j = false := by
  rw [findFrom?, isEmpty_false_of_ne_nil hb]
  simp only [Bool.false_eq_true, if_false, Option.map_eq_none']
  rw [findSub?_none]
  constructor
  · intro h j hj
    have := h (j - pos)
    rwa [occursAtB_drop, Nat.add_sub_cancel' hj] at this
  · intro h j
    rw [occursAtB_drop]
    exact h (pos + j) (by omega)

theorem splitMultiAux_sound (html : List Char) :
    ∀ (phs : List (List Char)) (pos : Nat) (segs : List (List Char)),
      pos ≤ html.length →
      splitMultiAux html phs pos = some segs →
      segs.length = phs.length + 1 ∧ interleaveConcat segs phs = html.drop pos := by
  intro phs
  induction phs with
  | nil =>
    intro pos segs hpos h
    simp only [splitMultiAux] at h
    cases h
    exact ⟨rfl, by simp [interleaveConcat]⟩
  | cons ph rest ih =>
    intro pos segs hpos h
    simp only [splitMultiAux] at h
    cases hf : findFrom? ph html pos with
    | none => rw [hf] at h; cases h
    | some i =>
      rw [hf, Option.map_eq_some'] at h
      obtain ⟨tl, htl, rfl⟩ := h
      by_cases hb : ph = []
      · subst hb
        have hieq : i = pos := by
          rw [findFrom?] at hf
          simp only [List.isEmpty_nil, if_true] at hf
          cases hf
          exact Nat.min_eq_left hpos
        subst hieq
        have ihres := ih (i + List.length ([] : List Char)) tl (by simpa using hpos) htl
        refine ⟨by simp [ihres.1, interleaveConcat], ?_⟩
        show extractL html i i ++ ([] ++ interleaveConcat tl rest) = html.drop i
        have h0 : extractL html i i = [] := by
          simp [extractL]
        rw [h0, List.nil_append, List.nil_append]
        simpa using ihres.2
      · obtain ⟨hile, hocc, -⟩ := (findFrom?_some ph html pos i hb).mp hf
        have hlen : i + ph.length ≤ html.length := occursAtB_le_length ph html i hb hocc
        have ihres := ih (i + ph.length) tl (by omega) htl
        refine ⟨by simp [ihres.1, interleaveConcat], ?_⟩
        show extractL html pos i ++ (ph ++ interleaveConcat tl rest) = html.drop pos
        rw [ihres.2]
        obtain ⟨r, hr⟩ := List.isPrefixOf_iff_prefix.mp hocc
        have hrr : html.drop (i + ph.length) = r := by
          have hcg := congrArg (List.drop ph.length) hr
          rw [List.drop_left] at hcg
          rw [hcg, List.drop_drop]
        rw [hrr]
        have hstep : extractL html pos i ++ (ph ++ r) = html.drop pos := by
          rw [hr]
          have h1 : extractL html pos i = (html.drop pos).take (i - pos) := rfl
          have h2 : html.drop i = (html.drop pos).drop (i - pos) := by
            rw [List.drop_drop, Nat.add_sub_cancel' hile]
          rw [h1, h2, List.take_append_drop]
        exact hstep

/-- C10: in multi-token (stylesheet) mode, a successful split returns
`tokens.length + 1` segments, and interleaving the segments with the
tokens in order reconstructs the input exactly: the split loses no
characters. -/
theorem splitHTMLByPlaceholder_multi_reconstruct (html : List Char)
    (phs segs : List (List Char))
    (h : splitHTMLByPlaceholder html (Placeholder.multi phs) = .ok segs) :
    segs.length = phs.length + 1 ∧ interleaveConcat segs phs = html := by
  have hmatch : splitHTMLByPlaceholder html (Placeholder.multi phs) =
      (match splitMultiAux html phs 0 with
        | none => Except.error splitNotFoundMsg
        | some parts => Except.ok parts) := rfl
  rw [hmatch] at h
  have hm : splitMultiAux html phs 0 = some segs := by
    cases hx : splitMultiAux html phs 0 with
    | none => rw [hx] at h; cases h
    | some l => rw [hx] at h; cases h; rfl
  have hres := splitMultiAux_sound html phs 0 segs (Nat.zero_le _) hm
  rw [List.drop_zero] at hres
  exact hres

/-- C10 witness: a concrete successful three-segment split
reconstructing its input. -/
theorem splitHTMLByPlaceholder_multi_reconstruct_witness :
    (["a".toList, "c".toList, "e".toList].length = ["#b".toList, "#d".toList].length + 1) ∧
    interleaveConcat ["a".toList, "c".toList, "e".toList] ["#b".toList, "#d".toList] =
      "a#bc#de".toList :=
  splitHTMLByPlaceholder_multi_reconstruct "a#bc#de".toList ["#b".toList, "#d".toList]
    ["a".toList, "c".toList, "e".toList] (by decide)

theorem occursAtB_nil_pat (s : List Char) (j : Nat) : occursAtB [] s j = true := by
  simp [occursAtB, List.isPrefixOf]

theorem splitMultiAux_spec (html : List Char) :
    ∀ (phs : List (List Char)) (pos : Nat) (segs : List (List Char)), pos ≤ html.length →
      (splitMultiAux html phs pos = some segs ↔ ScanSpec html pos phs segs) := by
  intro phs
  induction phs with
  | nil =>
    intro pos segs hpos
    simp only [splitMultiAux, ScanSpec]
    constructor
    · intro h
      cases h
      rfl
    · intro h
      rw [h]
  | cons ph rest ih =>
    intro pos segs hpos
    by_cases hb : ph = []
    · subst hb
      have hf : findFrom? [] html pos = some pos := by
        rw [findFrom?]
        simp [Nat.min_eq_left hpos]
      simp only [splitMultiAux, hf, Option.map_eq_some', ScanSpec]
      constructor
      · rintro ⟨tl, htl, rfl⟩
        refine ⟨pos, le_refl _, occursAtB_nil_pat html pos,
          fun j h1 h2 => absurd h2 (by omega), tl, rfl, ?_⟩
        have := (ih (pos + List.length ([] : List Char)) tl (by simpa using hpos)).mp htl
        simpa using this
      · rintro ⟨i, hi, _, hmin, tl, hsegs, hspec⟩
        have hieq : i = pos := by
          by_contra hne
          have hlt : pos < i := by omega
          have := hmin pos (le_refl _) hlt
          rw [occursAtB_nil_pat html pos] at this
          cases this
        subst hieq
        refine ⟨tl, ?_, hsegs.symm⟩
        rw [ih (i + List.length ([] : List Char)) tl (by simpa using hpos)]
        simpa using hspec
    · cases hf : findFrom? ph html pos with
      | none =>
        have hnone := (findFrom?_none ph html pos hb).mp hf
        simp only [splitMultiAux, hf, ScanSpec]
        constructor
        · intro h
          cases h
        · rintro ⟨i, hi, hocc, -, -⟩
          rw [hnone i hi] at hocc
          cases hocc
      | some i =>
        obtain ⟨hile, hocc, hmin⟩ := (findFrom?_some ph html pos i hb).mp hf
        have hlen : i + ph.length ≤ html.length := occursAtB_le_length ph html i hb hocc
        simp only [splitMultiAux, hf, Option.map_eq_some', ScanSpec]
        constructor
        · rintro ⟨tl, htl, rfl⟩
          exact ⟨i, hile, hocc, hmin, tl, rfl, (ih (i + ph.length) tl hlen).mp htl⟩
        · rintro ⟨i2, hi2, hocc2, hmin2, tl, hsegs, hspec⟩
          have h1 : ¬i2 < i := fun hlt => by
            rw [hmin i2 hi2 hlt] at hocc2
            cases hocc2
          have h2 : ¬i < i2 := fun hlt => by
            rw [hmin2 i hile hlt] at hocc
            cases hocc
          have hieq : i2 = i := by omega
          subst hieq
          exact ⟨tl, (ih (i2 + ph.length) tl hlen).mpr hspec, hsegs.symm⟩

theorem splitMultiAux_none_iff (html : List Char) :
    ∀ (phs : List (List Char)) (pos : Nat), pos ≤ html.length →
      (splitMultiAux html phs pos = none ↔ ScanFails html pos phs) := by
  intro phs
  induction phs with
  | nil =>
    intro pos hpos
    simp [splitMultiAux, ScanFails]
  | cons ph rest ih =>
    intro pos hpos
    by_cases hb : ph = []
    · subst hb
      have hf : findFrom? [] html pos = some pos := by
        rw [findFrom?]
        simp [Nat.min_eq_left hpos]
      simp only [splitMultiAux, hf, Option.map_eq_none', ScanFails]
      constructor
      · intro hnone
        refine Or.inr ⟨pos, le_refl _, occursAtB_nil_pat html pos,
          fun j h1 h2 => absurd h2 (by omega), ?_⟩
        have := (ih (pos + List.length ([] : List Char)) (by simpa using hpos)).mp hnone
        simpa using this
      · rintro (hall | ⟨i, hi, _, hmin, hfl⟩)
        · have := hall pos (le_refl _)
          rw [occursAtB_nil_pat html pos] at this
          cases this
        · have hieq : i = pos := by
            by_contra hne
            have hlt : pos < i := by omega
            have := hmin pos (le_refl _) hlt
            rw [occursAtB_nil_pat html pos] at this
            cases this
          subst hieq
          rw [ih (i + List.length ([] : List Char)) (by simpa using hpos)]
          simpa using hfl
    · cases hf : findFrom? ph html pos with
      | none =>
        have hnone := (findFrom?_none ph html pos hb).mp hf
        simp only [splitMultiAux, hf, ScanFails]
        constructor
        · intro _
          exact Or.inl (fun j hj => hnone j hj)
        · intro _
          trivial
      | some i =>
        obtain ⟨hile, hocc, hmin⟩ := (findFrom?_some ph html pos i hb).mp hf
        have hlen : i + ph.length ≤ html.length := occursAtB_le_length ph html i hb hocc
        simp only [splitMultiAux, hf, Option.map_eq_none', ScanFails]
        rw [ih (i + ph.length) hlen]
        constructor
        · intro hfl
          exact Or.inr ⟨i, hile, hocc, hmin, hfl⟩
        · rintro (hall | ⟨i2, hi2, hocc2, hmin2, hfl2⟩)
          · rw [hall i hile] at hocc
            cases hocc
          · have h1 : ¬i2 < i := fun hlt => by
              rw [hmin i2 hi2 hlt] at hocc2
              cases hocc2
            have h2 : ¬i < i2 := fun hlt => by
              rw [hmin2 i hile hlt] at hocc
              cases hocc
            have hieq : i2 = i := by omega
            subst hieq
            exact hfl2

/-- C7: the multi-token splitter realises the strict left-to-right
scan: a successful result is characterised by each token being located
at its least occurrence at or after the cursor left by the previous
token (`ScanSpec`), and it throws exactly when, following that cursor
discipline, some token has no occurrence at or after its cursor
(`ScanFails`). -/
theorem splitHTMLByPlaceholder_multi_scan (html : List Char) (phs : List (List Char)) :
    (∀ segs, splitHTMLByPlaceholder html (Placeholder.multi phs) = .ok segs ↔
      ScanSpec html 0 phs segs) ∧
    ((∃ e, splitHTMLByPlaceholder html (Placeholder.multi phs) = .error e) ↔
      ScanFails html 0 phs) := by
  have hmatch : splitHTMLByPlaceholder html (Placeholder.multi phs) =
      (match splitMultiAux html phs 0 with
        | none => Except.error splitNotFoundMsg
        | some parts => Except.ok parts) := rfl
  constructor
  · intro segs
    rw [hmatch, ← splitMultiAux_spec html phs 0 segs (Nat.zero_le _)]
    cases hx : splitMultiAux html phs 0 with
    | none => simp
    | some l => simp
  · rw [hmatch, ← splitMultiAux_none_iff html phs 0 (Nat.zero_le _)]
    cases hx : splitMultiAux html phs 0 with
    | none => simp
    | some l => simp

/-- C7 witness: on a concrete input where the second token has no
occurrence after the cursor, the splitter's failure condition holds;
obtained by applying the scan characterisation to the concrete run. -/
theorem splitHTMLByPlaceholder_multi_scan_witness :
    ScanFails "a#b".toList 0 ["#".toList, "#".toList] :=
  (splitHTMLByPlaceholder_multi_scan "a#b".toList ["#".toList, "#".toList]).2.mp
    ⟨splitNotFoundMsg, by decide⟩

theorem containsSub_length (pat s : List Char) (h : containsSub pat s = true) :
    pat.length ≤ s.length := by
  rw [containsSub, Option.isSome_iff_exists] at h
  obtain ⟨i, hi⟩ := h
  have hocc := findSub?_occurs pat s i hi
  have hpre : pat <+: s.drop i := List.isPrefixOf_iff_prefix.mp hocc
  have h1 := hpre.length_le
  rw [List.length_drop] at h1
  omega

theorem markupLoop_shape (parts : List TemplatePart) :
    ∀ (fuel : Nat) (cand : List Char),
      ∃ mid, markupLoop parts fuel cand = cand ++ mid ++ placeholderSuffix := by
  intro fuel
  induction fuel with
  | zero => intro cand; exact ⟨[], by simp [markupLoop]⟩
  | succ f ih =>
    intro cand
    rw [markupLoop]
    split
    · obtain ⟨mid, hmid⟩ := ih (cand ++ ['_'])
      refine ⟨'_' :: mid, ?_⟩
      rw [hmid]
      simp
    · exact ⟨[], by simp⟩

theorem markupLoop_free (parts : List TemplatePart) :
    ∀ (fuel : Nat) (cand : List Char),
      (∀ part ∈ parts, part.text.length < (cand ++ placeholderSuffix).length + fuel) →
      ∀ part ∈ parts, containsSub (markupLoop parts fuel cand) part.text = false := by
  intro fuel
  induction fuel with
  | zero =>
    intro cand hlen part hpart
    rw [markupLoop]
    by_contra hcon
    rw [Bool.not_eq_false] at hcon
    have h1 := containsSub_length _ _ hcon
    have h2 := hlen part hpart
    omega
  | succ f ih =>
    intro cand hlen part hpart
    rw [markupLoop]
    split
    · apply ih (cand ++ ['_']) _ part hpart
      intro p hp
      have := hlen p hp
      simp only [List.length_append, List.length_cons, List.length_nil] at this ⊢
      omega
    · next hany =>
      by_contra hcon
      rw [Bool.not_eq_false] at hcon
      exact hany (List.any_eq_true.mpr ⟨part, hpart, hcon⟩)

theorem le_maxTextLen (parts : List TemplatePart) :
    ∀ part ∈ parts, part.text.length ≤ maxTextLen parts := by
  induction parts with
  | nil => intro part h; cases h
  | cons p rest ih =>
    intro part h
    have hunfold : maxTextLen (p :: rest) = max p.text.length (maxTextLen rest) := rfl
    rw [hunfold]
    rcases List.mem_cons.mp h with h | h
    · rw [h]
      exact le_max_left _ _
    · exact le_trans (ih part h) (le_max_right _ _)

theorem markupPlaceholder_free (parts : List TemplatePart) :
    ∀ part ∈ parts, containsSub (markupPlaceholder parts) part.text = false := by
  apply markupLoop_free
  intro part hpart
  have h1 := le_maxTextLen parts part hpart
  omega

theorem markupPlaceholder_ne_nil (parts : List TemplatePart) :
    markupPlaceholder parts ≠ [] := by
  obtain ⟨mid, hmid⟩ := markupLoop_shape parts (maxTextLen parts + 1) placeholderBase
  rw [markupPlaceholder, hmid]
  intro hc
  have := congrArg List.length hc
  simp [placeholderSuffix] at this

theorem toDecF_ne_nil : ∀ (fuel n : Nat), toDecF fuel n ≠ [] := by
  intro fuel n
  cases fuel with
  | zero => simp [toDecF]
  | succ f =>
    rw [toDecF]
    split
    · simp
    · simp

theorem pickNumF_fst_ne_nil (beforeFull : List Char) (rint : Nat → Nat) :
    ∀ (fuel k : Nat), (pickNumF beforeFull rint fuel k).1 ≠ [] := by
  intro fuel
  induction fuel with
  | zero =>
    intro k
    simpa [pickNumF, toDec] using toDecF_ne_nil (rint k) (rint k)
  | succ f ih =>
    intro k
    rw [pickNumF]
    split
    · exact ih (k + 1)
    · simpa [toDec] using toDecF_ne_nil (rint k) (rint k)

theorem varToken_ne_nil (base : List Char) : varToken base ≠ [] := by
  intro hc
  have := congrArg List.length hc
  simp [varToken] at this

theorem cssLoop_tokens_ne_nil (base : List Char) (rint : Nat → Nat) :
    ∀ (rest : List TemplatePart) (prevText : List Char) (k : Nat) (acc : List (List Char)),
      (∀ t ∈ acc, t ≠ []) →
      ∀ t ∈ (cssLoop base rint prevText rest k acc).tokens, t ≠ [] := by
  intro rest
  induction rest with
  | nil =>
    intro prevText k acc hacc t ht
    have hunfold : cssLoop base rint prevText [] k acc = .multi acc.reverse := rfl
    rw [hunfold] at ht
    exact hacc t (List.mem_reverse.mp ht)
  | cons part rest2 ih =>
    intro prevText k acc hacc t ht
    cases hclass : classifyBoundary prevText part.text with
    | selector =>
      simp only [cssLoop, hclass] at ht
      refine ih part.text k _ ?_ t ht
      intro x hx
      rcases List.mem_cons.mp hx with h | h
      · rw [h]; simp
      · exact hacc x h
    | key =>
      simp only [cssLoop, hclass] at ht
      refine ih part.text k _ ?_ t ht
      intro x hx
      rcases List.mem_cons.mp hx with h | h
      · rw [h]; simp
      · exact hacc x h
    | rule =>
      simp only [cssLoop, hclass] at ht
      have : t = ruleToken base := by simpa [Placeholder.tokens] using ht
      rw [this, ruleToken]
      simp
    | unit =>
      simp only [cssLoop, hclass] at ht
      refine ih part.text _ _ ?_ t ht
      intro x hx
      rcases List.mem_cons.mp hx with h | h
      · rw [h]; exact pickNumF_fst_ne_nil prevText rint _ k
      · exact hacc x h
    | value =>
      simp only [cssLoop, hclass] at ht
      refine ih part.text k _ ?_ t ht
      intro x hx
      rcases List.mem_cons.mp hx with h | h
      · rw [h]; exact varToken_ne_nil base
      · exact hacc x h
    | param =>
      simp only [cssLoop, hclass] at ht
      refine ih part.text k _ ?_ t ht
      intro x hx
      rcases List.mem_cons.mp hx with h | h
      · rw [h]; exact varToken_ne_nil base
      · exact hacc x h

/-- C2 (amended): every token of a generated placeholder is non-empty,
and in markup mode (tag without "css") the token additionally never
occurs as a substring of any part's text.  Stylesheet-mode tokens are
built from the per-call random base and are NOT checked against the
parts (see the counterexample), so only non-emptiness holds there. -/
theorem getPlaceholder_token_invariants (parts : List TemplatePart) (tag : Option (List Char))
    (rndHex : List Char) (rint : Nat → Nat) :
    ∀ t ∈ (getPlaceholder parts tag rndHex rint).tokens,
      t ≠ [] ∧ (isCssTag tag = false → ∀ part ∈ parts, containsSub t part.text = false) := by
  intro t ht
  by_cases hcss : isCssTag tag = true
  · rw [getPlaceholder.eq_def, if_pos hcss] at ht
    refine ⟨?_, fun hfalse => by simp [hfalse] at hcss⟩
    cases parts with
    | nil => cases ht
    | cons p rest =>
      exact cssLoop_tokens_ne_nil _ rint rest p.text 0 [] (fun x hx => absurd hx (by simp)) t ht
  · rw [Bool.not_eq_true] at hcss
    rw [getPlaceholder.eq_def, if_neg (by simp [hcss])] at ht
    have hteq : t = markupPlaceholder parts := by
      simpa [Placeholder.tokens] using ht
    rw [hteq]
    exact ⟨markupPlaceholder_ne_nil parts, fun _ => markupPlaceholder_free parts⟩

/-- C2 witness: on a concrete one-part markup template, the generated
token is non-empty and collision-free with the part text. -/
theorem getPlaceholder_token_invariants_witness :
    defaultToken ≠ [] ∧ containsSub defaultToken ("x".toList) = false := by
  have h := getPlaceholder_token_invariants [⟨"x".toList, 0, 1⟩] none [] (fun _ => 0)
    defaultToken (by decide)
  exact ⟨h.1, h.2 rfl ⟨"x".toList, 0, 1⟩ (by decide)⟩

/-- C2 counterexample: with a css tag and random base `tmp_0`, the
boundary before `{z` is a selector boundary, the emitted token
`#tmp_0` occurs verbatim in the first part's text `x#tmp_0y`:
stylesheet-mode tokens are not collision-checked against the parts. -/
theorem c2_counterexample :
    getPlaceholder c2Parts (some "css".toList) "0".toList (fun _ => 0) =
      Placeholder.multi ["#tmp_0".toList] ∧
    containsSub "#tmp_0".toList ("x#tmp_0y".toList) = true := by
  decide

/-- C3 (amended): in markup mode getPlaceholder does not consult the
per-call random inputs, so two runs with the same parts and tag agree;
in stylesheet mode the output additionally depends on the per-call
random draws (see the counterexample), so determinism holds only per
fixed draw. -/
theorem getPlaceholder_markup_deterministic (parts : List TemplatePart)
    (tag : Option (List Char)) (hex1 hex2 : List Char) (rint1 rint2 : Nat → Nat)
    (hcss : isCssTag tag = false) :
    getPlaceholder parts tag hex1 rint1 = getPlaceholder parts tag hex2 rint2 := by
  rw [getPlaceholder.eq_def, getPlaceholder.eq_def, if_neg (by simp [hcss]), if_neg (by simp [hcss])]

/-- C3 witness: two markup-mode runs with different random inputs give
the same placeholder. -/
theorem getPlaceholder_markup_deterministic_witness :
    getPlaceholder [⟨"x".toList, 0, 1⟩] none "a".toList (fun _ => 0) =
      getPlaceholder [⟨"x".toList, 0, 1⟩] none "b".toList (fun k => k + 7) :=
  getPlaceholder_markup_deterministic _ none _ _ _ _ rfl

/-- C3 counterexample: with a css tag and the same parts, two calls
with different per-call random draws return different placeholders (the
selector token embeds the random base), so getPlaceholder is not a
function of its parts-and-tag input alone. -/
theorem c3_counterexample :
    getPlaceholder c2Parts (some "css".toList) "0".toList (fun _ => 0) ≠
      getPlaceholder c2Parts (some "css".toList) "1".toList (fun _ => 0) := by
  decide

/-- C4 (amended): in stylesheet mode, a boundary classified as selector
position (boundary followed by `{`, optionally preceded by whitespace,
comments stripped) receives the per-boundary id-shaped token `#<base>`
and the loop CONTINUES with the remaining boundaries; the single
call-style token `@<base>();` that short-circuits the loop is emitted
for a rule-position boundary (boundary preceded by `}` or by
only-whitespace text), not for a selector one. -/
theorem cssLoop_selector_continues (base : List Char) (rint : Nat → Nat)
    (prevText : List Char) (part : TemplatePart) (rest : List TemplatePart)
    (k : Nat) (acc : List (List Char)) :
    (classifyBoundary prevText part.text = BoundaryClass.selector →
      cssLoop base rint prevText (part :: rest) k acc =
        cssLoop base rint part.text rest k (('#' :: base) :: acc)) ∧
    (classifyBoundary prevText part.text = BoundaryClass.rule →
      cssLoop base rint prevText (part :: rest) k acc = .single (ruleToken base)) := by
  constructor
  · intro h
    simp only [cssLoop, h]
  · intro h
    simp only [cssLoop, h]

/-- C4 witness: a concrete selector boundary gets `#tmp_0` and
continues; obtained by applying the classification theorem. -/
theorem cssLoop_selector_continues_witness :
    cssLoop "tmp_0".toList (fun _ => 0) "x".toList [⟨['\x7b'], 0, 0⟩] 0 [] =
      cssLoop "tmp_0".toList (fun _ => 0) ['\x7b'] [] 0 [('#' :: "tmp_0".toList)] :=
  (cssLoop_selector_continues "tmp_0".toList (fun _ => 0) "x".toList ⟨['\x7b'], 0, 0⟩ [] 0 []).1
    (by decide)

/-- C4 counterexample: the parts `x` and `{z` put the single boundary
in selector position, yet getPlaceholder returns an ARRAY holding the
id-shaped token `#tmp_0`, not a single call-style token standing for
the whole placeholder: selector boundaries do not short-circuit. -/
theorem c4_counterexample :
    classifyBoundary "x".toList ('\x7b' :: "z".toList) = BoundaryClass.selector ∧
    Placeholder.isSingle (getPlaceholder c4Parts (some "css".toList) "0".toList (fun _ => 0)) = false ∧
    getPlaceholder c4Parts (some "css".toList) "0".toList (fun _ => 0) =
      Placeholder.multi ["#tmp_0".toList] := by
  decide

/-- C5 (amended): when the external stylesheet minifier reports no hard
errors but at least one warning, minifyCSS discards the minified output
and returns, with all line breaks removed, the PREPROCESSED text — the
input with every `@TEMPLATE_EXPRESSION();:` occurrence already
rewritten to `--TEMPLATE-EXPRESSION:` — not the original input (see the
counterexample); it is unchanged otherwise. -/
theorem minifyCSS_warning_fallback (extMinify : List Char → CssOutput)
    (postFix : List Char → List Char → List Char) (css : List Char)
    (herr : (extMinify (replaceAllL css cssColonPat cssColonRepl)).errors = [])
    (hwarn : (extMinify (replaceAllL css cssColonPat cssColonRepl)).warnings ≠ []) :
    minifyCSS extMinify postFix css =
      .ok (stripNewlines (replaceAllL css cssColonPat cssColonRepl)) := by
  have hdef : minifyCSS extMinify postFix css =
      (if (extMinify (replaceAllL css cssColonPat cssColonRepl)).errors ≠ [] then
        Except.error (List.intercalate ("\n\n".toList)
          (extMinify (replaceAllL css cssColonPat cssColonRepl)).errors)
      else if (extMinify (replaceAllL css cssColonPat cssColonRepl)).warnings ≠ [] then
        Except.ok (stripNewlines (replaceAllL css cssColonPat cssColonRepl))
      else Except.ok (postFix (replaceAllL css cssColonPat cssColonRepl)
        (replaceAllL (extMinify (replaceAllL css cssColonPat cssColonRepl)).styles
          cssColonRepl cssColonPat))) := rfl
  rw [hdef, if_neg (by simp [herr]), if_pos hwarn]

/-- C5 witness: a concrete warnings-only run returning the line-stripped
preprocessed text. -/
theorem minifyCSS_warning_fallback_witness :
    minifyCSS c5Ext (fun _ r => r) c5Css =
      .ok (stripNewlines (replaceAllL c5Css cssColonPat cssColonRepl)) :=
  minifyCSS_warning_fallback c5Ext (fun _ r => r) c5Css rfl (by decide)

/-- C5 counterexample: on an input containing the shape
`@TEMPLATE_EXPRESSION();:`, a warnings-only run of minifyCSS returns
the line-stripped text with `--TEMPLATE-EXPRESSION:` substituted, which
differs from the original input with line breaks removed. -/
theorem c5_counterexample :
    minifyCSS c5Ext (fun _ r => r) c5Css =
      .ok ("--TEMPLATE-EXPRESSION:red".toList) ∧
    "--TEMPLATE-EXPRESSION:red".toList ≠ stripNewlines c5Css := by
  decide

theorem commentOpen_length : commentOpen.length = 4 := rfl

theorem defaultToken_length : defaultToken.length = 23 := rfl

/-- C6 (amended): the pre-flight detects only the DEFAULT token on a
single line: whenever `@TEMPLATE_EXPRESSION();` occurs between `<!--`
and `-->` with no line terminator in either gap, minifyHTML returns its
input unchanged.  An extended placeholder (collision case) or a comment
whose gaps span line breaks is not detected (see the counterexample). -/
theorem minifyHTML_comment_preflight (extMinify : List Char → List Char)
    (postFix : List Char → List Char → List Char)
    (a b c d : List Char) (hnb : noLineTerm b = true) (hnc : noLineTerm c = true) :
    minifyHTML extMinify postFix
        (a ++ (commentOpen ++ (b ++ (defaultToken ++ (c ++ (commentClose ++ d)))))) =
      a ++ (commentOpen ++ (b ++ (defaultToken ++ (c ++ (commentClose ++ d))))) := by
  set s := a ++ (commentOpen ++ (b ++ (defaultToken ++ (c ++ (commentClose ++ d))))) with hs
  have hslen : s.length = a.length + (4 + (b.length + (23 + (c.length + (3 + d.length))))) := by
    simp [hs, List.length_append, commentOpen, defaultToken, commentClose]
    omega
  have hd1 : s.drop a.length = commentOpen ++ (b ++ (defaultToken ++ (c ++ (commentClose ++ d)))) :=
    List.drop_left a _
  have hd2 : s.drop (a.length + 4) = b ++ (defaultToken ++ (c ++ (commentClose ++ d))) := by
    rw [← List.drop_drop, hd1, ← commentOpen_length, List.drop_left]
  have hd3 : s.drop (a.length + 4 + b.length) = defaultToken ++ (c ++ (commentClose ++ d)) := by
    rw [← List.drop_drop, hd2, List.drop_left]
  have hd4 : s.drop (a.length + 4 + b.length + 23) = c ++ (commentClose ++ d) := by
    rw [← List.drop_drop, hd3, ← defaultToken_length, List.drop_left]
  have hd5 : s.drop (a.length + 4 + b.length + 23 + c.length) = commentClose ++ d := by
    rw [← List.drop_drop, hd4, List.drop_left]
  have he1 : extractL s (a.length + 4) (a.length + 4 + b.length) = b := by
    rw [extractL, hd2]
    have harith : a.length + 4 + b.length - (a.length + 4) = b.length := by omega
    rw [harith, List.take_left]
  have he2 : extractL s (a.length + 4 + b.length + 23) (a.length + 4 + b.length + 23 + c.length) = c := by
    rw [extractL, hd4]
    have harith : a.length + 4 + b.length + 23 + c.length - (a.length + 4 + b.length + 23) = c.length := by
      omega
    rw [harith, List.take_left]
  have hhas : hasCommentExpression s = true := by
    rw [hasCommentExpression, defaultToken_length]
    refine List.any_eq_true.mpr ⟨a.length, List.mem_range.mpr (by omega), ?_⟩
    simp only [Bool.and_eq_true, decide_eq_true_eq]
    refine ⟨?_, ?_⟩
    · rw [hd1, List.isPrefixOf_iff_prefix]
      exact List.prefix_append _ _
    · refine List.any_eq_true.mpr ⟨a.length + 4 + b.length, List.mem_range.mpr (by omega), ?_⟩
      simp only [Bool.and_eq_true, decide_eq_true_eq]
      refine ⟨⟨⟨by omega, ?_⟩, ?_⟩, ?_⟩
      · rw [hd3, List.isPrefixOf_iff_prefix]
        exact List.prefix_append _ _
      · rw [he1]
        exact hnb
      · refine List.any_eq_true.mpr ⟨a.length + 4 + b.length + 23 + c.length,
          List.mem_range.mpr (by omega), ?_⟩
        simp only [Bool.and_eq_true, decide_eq_true_eq]
        refine ⟨⟨by omega, ?_⟩, ?_⟩
        · rw [hd5, List.isPrefixOf_iff_prefix]
          exact List.prefix_append _ _
        · rw [he2]
          exact hnc
  rw [minifyHTML.eq_def, if_pos hhas]

/-- C6 witness: minifyHTML leaves a one-line comment-embedded default
token untouched; obtained from the pre-flight theorem. -/
theorem minifyHTML_comment_preflight_witness :
    minifyHTML (fun _ => []) (fun _ r => r)
        ([] ++ (commentOpen ++ ([] ++ (defaultToken ++ ([] ++ (commentClose ++ [])))))) =
      [] ++ (commentOpen ++ ([] ++ (defaultToken ++ ([] ++ (commentClose ++ []))))) :=
  minifyHTML_comment_preflight (fun _ => []) (fun _ r => r) [] [] [] [] rfl rfl

/-- C6 counterexample: when a part contains the default token,
getPlaceholder extends the placeholder to `@TEMPLATE_EXPRESSION_();`;
that extended token sits inside a markup comment of the combined
string, yet minifyHTML (the pre-flight regex only knows the default
token) proceeds and does NOT return its input unchanged — here with an
external minifier returning the empty string. -/
theorem c6_counterexample :
    getPlaceholder c6Parts none [] (fun _ => 0) = Placeholder.single c6Tok ∧
    TokenInsideComment c6Tok (combineHTMLStrings c6Parts (Placeholder.single c6Tok)) ∧
    minifyHTML (fun _ => []) (fun _ r => r)
        (combineHTMLStrings c6Parts (Placeholder.single c6Tok)) ≠
      combineHTMLStrings c6Parts (Placeholder.single c6Tok) := by
  refine ⟨by decide, ?_, by decide⟩
  exact ⟨"@TEMPLATE_EXPRESSION();x".toList, [], [], [], by decide⟩

/-- C8: the pre-minification validator throws exactly for a placeholder
that is the empty string or an array containing an empty string, and
accepts every other placeholder. -/
theorem ensurePlaceholderValid_spec (p : Placeholder) :
    (∃ e, ensurePlaceholderValid p = .error e) ↔
      (p = .single [] ∨ ∃ l, p = .multi l ∧ [] ∈ l) := by
  cases p with
  | single s =>
    cases s with
    | nil => simp [ensurePlaceholderValid]
    | cons c t => simp [ensurePlaceholderValid]
  | multi l =>
    by_cases hall : l.all (fun ph => decide (0 < ph.length)) = true
    · have hok : ensurePlaceholderValid (.multi l) = .ok () := by
        simp [ensurePlaceholderValid, hall]
      rw [hok]
      constructor
      · rintro ⟨e, he⟩
        cases he
      · rintro (h | ⟨l2, hl2, hmem⟩)
        · cases h
        · injection hl2 with hl2e
          subst hl2e
          have := List.all_eq_true.mp hall [] hmem
          simp at this
    · have herr : ensurePlaceholderValid (.multi l) = .error validationMsg := by
        simp only [ensurePlaceholderValid]
        rw [if_neg hall]
      rw [herr]
      constructor
      · intro _
        refine Or.inr ⟨l, rfl, ?_⟩
        rw [List.all_eq_true] at hall
        push_neg at hall
        obtain ⟨x, hx, hxlen⟩ := hall
        have hx0 : x.length = 0 := by
          by_contra hpos
          exact hxlen (by simpa using Nat.pos_of_ne_zero hpos)
        rw [List.length_eq_zero] at hx0
        rw [← hx0]
        exact hx
      · intro _
        exact ⟨validationMsg, rfl⟩

/-- C8 witness: the empty single placeholder is rejected. -/
theorem ensurePlaceholderValid_spec_witness :
    ∃ e, ensurePlaceholderValid (Placeholder.single []) = .error e :=
  (ensurePlaceholderValid_spec (Placeholder.single [])).mpr (Or.inl rfl)

theorem minifyEdits_nil (templates : List Template)
    (proc : Template → Option (List (List Char)))
    (h : ∀ t ∈ templates, proc t = none) : minifyEdits templates proc = [] := by
  induction templates with
  | nil => rfl
  | cons t rest ih =>
    simp only [minifyEdits, List.map_cons, List.flatten_cons, h t (by simp)]
    rw [List.nil_append]
    exact ih (fun x hx => h x (by simp [hx]))

/-- C9: with the external parser and the per-template pipeline
abstracted, the orchestrator returns the "no change" sentinel when no
template qualifies (no overwrites at all) and, more generally, exactly
when the overwritten buffer equals the source; any non-sentinel result
has a code field that differs from the source. -/
theorem minifyHTMLLiterals_noop (parse : List Char → List Template)
    (processTemplate : Template → Option (List (List Char))) (source : List Char) :
    ((∀ t ∈ parse source, processTemplate t = none) →
      minifyHTMLLiterals parse processTemplate source = none) ∧
    (minifyHTMLLiterals parse processTemplate source = none ↔
      applyEdits source (minifyEdits (parse source) processTemplate) = source) ∧
    (∀ code, minifyHTMLLiterals parse processTemplate source = some code → code ≠ source) := by
  have hdef : minifyHTMLLiterals parse processTemplate source =
      (if applyEdits source (minifyEdits (parse source) processTemplate) = source then none
       else some (applyEdits source (minifyEdits (parse source) processTemplate))) := rfl
  refine ⟨?_, ?_, ?_⟩
  · intro h
    rw [hdef, minifyEdits_nil _ _ h]
    simp [applyEdits]
  · rw [hdef]
    by_cases heq : applyEdits source (minifyEdits (parse source) processTemplate) = source
    · simp [heq]
    · simp [heq]
  · intro code h
    rw [hdef] at h
    by_cases heq : applyEdits source (minifyEdits (parse source) processTemplate) = source
    · rw [if_pos heq] at h
      cases h
    · rw [if_neg heq] at h
      injection h with he
      rw [← he]
      exact heq

/-- C9 witness: a source with no templates yields the sentinel. -/
theorem minifyHTMLLiterals_noop_witness :
    minifyHTMLLiterals (fun _ => []) (fun _ => none) "abc".toList = none :=
  (minifyHTMLLiterals_noop (fun _ => []) (fun _ => none) "abc".toList).1
    (fun t ht => absurd ht (by simp))
